import Mathlib

/-!
Verification of the catalog-generator pricing, code-normalization and
pipeline-step logic, shallowly embedded from the TypeScript sources:

- `src/src/utils/pricing.ts`        (toComma99Cents on euro values)
- `src/supabase/functions/sync-step-runner/index.ts`
  (toComma99Cents on integer cents, stepPricing, normalizeEAN,
   stepParseMerge, stepEanMapping, stepExportEan, stepExportMediaworld,
   the HTTP dispatcher)
- `src/src/utils/ean.ts`            (normalizeEAN, filterAndNormalizeForEAN)

Currency values are modelled as rationals; JavaScript `Math.round`,
`Math.floor` and `Math.ceil` become `Int.floor (x + 1/2)`, `Int.floor`
and `Int.ceil` on `ℚ`.
-/

/-- JavaScript `Math.round x` (round half toward positive infinity). -/
def jsRound (x : ℚ) : ℤ := ⌊x + 1 / 2⌋

/-- Cents of a euro value, rounded as in `pricing.ts`:
`Math.floor (v * 100 + 0.5)`. -/
def roundToCentsZ (v : ℚ) : ℤ := ⌊v * 100 + 1 / 2⌋

/-- Embedding of `toComma99Cents` from `src/src/utils/pricing.ts` (input in
euros). The source returns `NaN` for non-finite or non-positive input, which
is modelled by `none`. The source's mutable
`let resultCents := euros*100+99; if cents > resultCents then ...`
is written as a single conditional. -/
def toComma99Cents (v : ℚ) : Option ℚ :=
  if v ≤ 0 then none
  else
    let cents := roundToCentsZ v
    let euros : ℤ := ⌊(cents : ℚ) / 100⌋
    if cents > euros * 100 + 99 then some ((((euros + 1) * 100 + 99 : ℤ) : ℚ) / 100)
    else some (((euros * 100 + 99 : ℤ) : ℚ) / 100)

/-- Embedding of `toComma99Cents` from
`src/supabase/functions/sync-step-runner/index.ts` (input already in integer
cents). -/
def toComma99CentsRunner (cents : ℤ) : ℤ :=
  if cents % 100 = 99 then cents
  else
    let euros : ℤ := ⌊(cents : ℚ) / 100⌋
    if euros * 100 + 99 < cents then (euros + 1) * 100 + 99
    else euros * 100 + 99

/-- Base price in cents from `stepPricing` (sync-step-runner, line 265):
`hasCBP ? round((CBP + Sur) * 100) : (hasLP ? round(LP * 100) : 0)`. -/
def computeBaseCents (lp cbp sur : ℚ) : ℤ :=
  if 0 < cbp then jsRound ((cbp + sur) * 100)
  else if 0 < lp then jsRound (lp * 100)
  else 0

/-- Final sale price in cents from `stepPricing` (sync-step-runner,
line 268): three chained multiplications with `Math.round` after each,
then the `.99` forcing. -/
def pricingFinalCents (baseCents shipCents : ℤ) (feeDrev feeMkt : ℚ) : ℤ :=
  let afterVat := jsRound (((baseCents + shipCents : ℤ) : ℚ) * (122 / 100))
  let afterDrev := jsRound ((afterVat : ℚ) * feeDrev)
  let afterMkt := jsRound ((afterDrev : ℚ) * feeMkt)
  toComma99CentsRunner afterMkt

/-- Two-digit rendering of a cent remainder, as produced by
`Number.toFixed(2)`. -/
def natTwoDigits (n : ℕ) : String :=
  if n < 10 then "0" ++ toString n else toString n

/-- Display form of a non-negative cent amount:
`(cents / 100).toFixed(2).replace(".", ",")` from `stepPricing`. -/
def displayCents (c : ℤ) : String :=
  toString (c.toNat / 100) ++ "," ++ natTwoDigits (c.toNat % 100)

/-- The list-price-with-fee computed by `stepPricing` (sync-step-runner,
lines 274-284). `none` models the blank string assigned when neither price
is usable. `finalEuros` is the already-computed final sale price in euros. -/
def lpfValue (lp cbp ship feeDrev feeMkt finalEuros : ℚ) : Option ℤ :=
  if (lp ≤ 0 ∨ (0 < cbp ∧ lp < cbp)) ∧ 0 < cbp then
    some (max ⌈((cbp * (125 / 100) + ship) * (122 / 100)) * feeDrev * feeMkt⌉
              ⌈finalEuros * (125 / 100)⌉)
  else if 0 < lp then
    some ⌈((lp + ship) * (122 / 100)) * feeDrev * feeMkt⌉
  else
    none

/-- List-price-with-fee as the specification describes it (amended):
the override route is taken exactly when bestPrice is positive and either
listPrice is missing/zero/invalid or listPrice is below bestPrice; the
normal route is taken when listPrice is positive otherwise; blank when
neither price is valid. -/
def specListPriceWithFee (lp cbp ship feeDrev feeMkt finalEuros : ℚ) : Option ℤ :=
  if 0 < cbp ∧ (lp ≤ 0 ∨ lp < cbp) then
    some (max ⌈((cbp * (125 / 100) + ship) * (122 / 100)) * feeDrev * feeMkt⌉
              ⌈finalEuros * (125 / 100)⌉)
  else if 0 < lp then
    some ⌈((lp + ship) * (122 / 100)) * feeDrev * feeMkt⌉
  else
    none

-- ===== EAN normalization (src/src/utils/ean.ts and sync-step-runner) =====

/-- Characters matched by the JavaScript whitespace class in the regexes
and by String.prototype.trim, restricted to the ASCII range. -/
def isJsSpace (c : Char) : Bool :=
  c = ' ' || c = '\t' || c = '\n' || c = '\r' || c = '\x0b' || c = '\x0c'

/-- Characters removed by the replace pattern dropping whitespace and
hyphens. -/
def isStripChar (c : Char) : Bool := isJsSpace c || c = '-'

/-- JavaScript String.prototype.trim on a list of characters. -/
def jsTrim (s : List Char) : List Char :=
  ((s.dropWhile isJsSpace).reverse.dropWhile isJsSpace).reverse

/-- Rejection reasons of normalizeEAN. The Italian source strings are
abstracted: missing stands for EAN mancante, nonNumeric for the
non-numeric message, invalidLength n for the length-n message. -/
inductive EANReason where
  | missing
  | nonNumeric
  | invalidLength (n : ℕ)
deriving DecidableEq

/-- Outcome of normalizeEAN: either a rejection reason or the accepted,
normalized code. -/
inductive EANResult where
  | rejected (reason : EANReason)
  | accepted (value : List Char)
deriving DecidableEq

/-- Embedding of normalizeEAN from src/src/utils/ean.ts: trim, reject an
empty input, strip whitespace and hyphens, reject unless the stripped form
is a non-empty digit string, accept length 13 unchanged and length 12 with
a padded zero, reject every other length. -/
def normalizeEAN_ts (raw : List Char) : EANResult :=
  let original := jsTrim raw
  if original = [] then .rejected .missing
  else
    let compact := original.filter (fun c => !isStripChar c)
    if ¬ (compact ≠ [] ∧ compact.all Char.isDigit = true) then .rejected .nonNumeric
    else if compact.length = 13 then .accepted compact
    else if compact.length = 12 then .accepted ('0' :: compact)
    else .rejected (.invalidLength compact.length)

/-- Embedding of normalizeEAN from
src/supabase/functions/sync-step-runner/index.ts: same as the utils
version, but length 14 is accepted, stripping a leading zero when present
and keeping all 14 digits otherwise. -/
def normalizeEAN_runner (raw : List Char) : EANResult :=
  let original := jsTrim raw
  if original = [] then .rejected .missing
  else
    let compact := original.filter (fun c => !isStripChar c)
    if ¬ (compact ≠ [] ∧ compact.all Char.isDigit = true) then .rejected .nonNumeric
    else if compact.length = 12 then .accepted ('0' :: compact)
    else if compact.length = 13 then .accepted compact
    else if compact.length = 14 then
      .accepted (if compact.head? = some '0' then compact.tail else compact)
    else .rejected (.invalidLength compact.length)

/-- The reference definition exactly as the claim words it: strip internal
whitespace and hyphens; then empty input is rejected as missing; input
containing a non-digit is rejected as non-numeric; a 12-digit input is
accepted left-padded with one zero; a 13-digit input is accepted; a
14-digit input with a leading zero is accepted with the zero stripped;
every other case is rejected with an invalid-length reason. -/
def claimReferenceNormalizeEAN (raw : List Char) : EANResult :=
  let compact := (jsTrim raw).filter (fun c => !isStripChar c)
  if compact = [] then .rejected .missing
  else if ¬ compact.all Char.isDigit = true then .rejected .nonNumeric
  else if compact.length = 12 then .accepted ('0' :: compact)
  else if compact.length = 13 then .accepted compact
  else if compact.length = 14 ∧ compact.head? = some '0' then .accepted compact.tail
  else .rejected (.invalidLength compact.length)

/-- Amended reference for the utils implementation: emptiness is decided
on the trimmed input before stripping, and every length other than 12 and
13, including 14, is rejected. -/
def refNormalizeUtils (raw : List Char) : EANResult :=
  let t := jsTrim raw
  let compact := t.filter (fun c => !isStripChar c)
  if t = [] then .rejected .missing
  else if compact = [] ∨ ¬ compact.all Char.isDigit = true then .rejected .nonNumeric
  else if compact.length = 12 then .accepted ('0' :: compact)
  else if compact.length = 13 then .accepted compact
  else .rejected (.invalidLength compact.length)

/-- Amended reference for the step-runner implementation: as the utils
reference, but a 14-digit input is accepted, stripped of its leading zero
when present and kept whole otherwise. -/
def refNormalizeRunner (raw : List Char) : EANResult :=
  let t := jsTrim raw
  let compact := t.filter (fun c => !isStripChar c)
  if t = [] then .rejected .missing
  else if compact = [] ∨ ¬ compact.all Char.isDigit = true then .rejected .nonNumeric
  else if compact.length = 12 then .accepted ('0' :: compact)
  else if compact.length = 13 then .accepted compact
  else if compact.length = 14 then
    .accepted (if compact.head? = some '0' then compact.tail else compact)
  else .rejected (.invalidLength compact.length)

-- ===== Catalog-builder deduplication (src/src/utils/ean.ts) =====

/-- A product row as consumed by filterAndNormalizeForEAN. Only the fields
the dedup logic touches are modelled; the final price callback supplies
the price. -/
structure ERow where
  matnr : List Char
  mpn : List Char
  ean : List Char
deriving DecidableEq

/-- A duplicate-discard report entry: the losing row (with its normalized
code) and the final price written into the Motivo_scarto message. -/
structure DupDiscard where
  row : ERow
  price : ℚ
deriving DecidableEq

/-- First pass of filterAndNormalizeForEAN: rows whose code normalizes,
with the normalized code written back into the row. -/
def validRows (rows : List ERow) : List ERow :=
  rows.filterMap (fun r =>
    match normalizeEAN_ts r.ean with
    | .accepted v => some { r with ean := v }
    | .rejected _ => none)

/-- First-pass discards: rows whose code fails to normalize, with the
reason. -/
def invalidDiscards (rows : List ERow) : List (ERow × EANReason) :=
  rows.filterMap (fun r =>
    match normalizeEAN_ts r.ean with
    | .rejected reason => some (r, reason)
    | .accepted _ => none)

/-- The byEAN JavaScript Map, as an insertion-ordered association list of
normalized code, row and final price. -/
abbrev EANMap := List (List Char × ERow × ℚ)

/-- Map.get: the value stored under a key, if any. -/
def mapLookup (m : EANMap) (k : List Char) : Option (ERow × ℚ) :=
  match m with
  | [] => none
  | (k', v) :: t => if k' = k then some v else mapLookup t k

/-- Map.set: replace in place when the key is present, append otherwise. -/
def mapSet (m : EANMap) (k : List Char) (v : ERow × ℚ) : EANMap :=
  match m with
  | [] => [(k, v)]
  | (k', w) :: t => if k' = k then (k, v) :: t else (k', w) :: mapSet t k v

/-- One iteration of the dedup loop of filterAndNormalizeForEAN: a fresh
code is inserted; on a repeat the better-priced candidate is kept (the new
one on a tie) and the loser is pushed onto the discard report with its
price. -/
def dedupStep (f : ERow → ℚ) (st : EANMap × List DupDiscard) (r : ERow) :
    EANMap × List DupDiscard :=
  let price := f r
  match mapLookup st.1 r.ean with
  | none => (mapSet st.1 r.ean (r, price), st.2)
  | some prev =>
      if prev.2 ≤ price then
        (mapSet st.1 r.ean (r, price), st.2 ++ [⟨prev.1, prev.2⟩])
      else
        (mapSet st.1 r.ean prev, st.2 ++ [⟨r, price⟩])

/-- The dedup loop over the normalized rows. -/
def dedupByEAN (f : ERow → ℚ) (valid : List ERow) : EANMap × List DupDiscard :=
  valid.foldl (dedupStep f) ([], [])

/-- The values of the byEAN map, in insertion order. -/
def mapValues (m : EANMap) : List (ERow × ℚ) := m.map (fun e => e.2)

/-- Result of filterAndNormalizeForEAN: the kept catalog rows, the
duplicate discards and the normalization discards. -/
structure EANFilterResult where
  kept : List ERow
  dupDiscards : List DupDiscard
  invalids : List (ERow × EANReason)

/-- Embedding of filterAndNormalizeForEAN from src/src/utils/ean.ts. -/
def filterAndNormalizeForEAN (f : ERow → ℚ) (rows : List ERow) : EANFilterResult :=
  let valid := validRows rows
  let res := dedupByEAN f valid
  ⟨(mapValues res.1).map Prod.fst, res.2, invalidDiscards rows⟩

/-- The same-code candidates among the normalized rows, in order, paired
with their final prices. -/
def candidatesFor (f : ERow → ℚ) (valid : List ERow) (k : List Char) :
    List (ERow × ℚ) :=
  (valid.filter (fun r => decide (r.ean = k))).map (fun r => (r, f r))

/-- The specification's retained candidate: among the candidates, the
last one whose price is greatest (greatest final price, ties won by the
later-seen candidate). -/
def latestMax (l : List (ERow × ℚ)) : Option (ERow × ℚ) :=
  (l.filter (fun x => decide (∀ y ∈ l, y.2 ≤ x.2))).getLast?

/-- Row-price pairs recorded in the duplicate discard report. -/
def discPairs (d : List DupDiscard) : List (ERow × ℚ) :=
  d.map (fun x => (x.row, x.price))

/-- Row-price pairs of a processed prefix of the normalized rows. -/
def rowPairs (f : ERow → ℚ) (p : List ERow) : List (ERow × ℚ) :=
  p.map (fun r => (r, f r))

/-- Invariant carried through the dedup fold: the map keys are distinct,
each binding stores its own key and price, each key holds the
later-ties price-maximal candidate among the processed prefix, and the
map values plus the duplicate discards account for every processed row
exactly once. -/
def DedupInv (f : ERow → ℚ) (p : List ERow) (st : EANMap × List DupDiscard) : Prop :=
  (st.1.map Prod.fst).Nodup
  ∧ (∀ e ∈ st.1, e.2.1.ean = e.1 ∧ e.2.2 = f e.2.1)
  ∧ (∀ k, mapLookup st.1 k = latestMax (candidatesFor f p k))
  ∧ ((mapValues st.1 : Multiset (ERow × ℚ)) + (discPairs st.2 : Multiset (ERow × ℚ))
      = (rowPairs f p : Multiset (ERow × ℚ)))

-- ===== Join step (stepParseMerge, sync-step-runner lines 120-157) =====

/-- A price-index entry: list price, customer best price, surcharge. -/
structure PriceEntry where
  lp : ℚ
  cbp : ℚ
  sur : ℚ
deriving DecidableEq

/-- A parsed material row; only the join key drives the filters, the
remaining text fields ride along. -/
structure MatRow where
  matnr : List Char
  mpn : List Char
  ean : List Char
  desc : List Char
deriving DecidableEq

/-- The four skip counters of stepParseMerge. -/
structure SkipCounters where
  noStock : ℕ
  noPrice : ℕ
  lowStock : ℕ
  noValid : ℕ
deriving DecidableEq

/-- Buckets a considered row can fall into. -/
inductive RowClass where
  | kept
  | noStock
  | noPrice
  | lowStock
  | noValid
deriving DecidableEq

/-- Classification of a material row by the first failing filter, in the
fixed source order: blank key is not considered at all (none); then
stock-index lookup, price-index lookup, the stock threshold and price
validity. The getD defaults are never reached: the preceding branches
guarantee the lookups succeed. -/
def classifyRow (stock : List Char → Option ℤ)
    (price : List Char → Option PriceEntry) (r : MatRow) : Option RowClass :=
  if r.matnr = [] then none
  else if stock r.matnr = none then some .noStock
  else if price r.matnr = none then some .noPrice
  else if (stock r.matnr).getD 0 < 2 then some .lowStock
  else if ((price r.matnr).getD ⟨0, 0, 0⟩).lp ≤ 0
      ∧ ((price r.matnr).getD ⟨0, 0, 0⟩).cbp ≤ 0 then some .noValid
  else some .kept

/-- One iteration of the material loop: keep the row or bump the counter
of its bucket. -/
def parseMergeStep (stock : List Char → Option ℤ)
    (price : List Char → Option PriceEntry)
    (st : List MatRow × SkipCounters) (r : MatRow) : List MatRow × SkipCounters :=
  match classifyRow stock price r with
  | none => st
  | some RowClass.kept => (st.1 ++ [r], st.2)
  | some RowClass.noStock =>
      (st.1, ⟨st.2.noStock + 1, st.2.noPrice, st.2.lowStock, st.2.noValid⟩)
  | some RowClass.noPrice =>
      (st.1, ⟨st.2.noStock, st.2.noPrice + 1, st.2.lowStock, st.2.noValid⟩)
  | some RowClass.lowStock =>
      (st.1, ⟨st.2.noStock, st.2.noPrice, st.2.lowStock + 1, st.2.noValid⟩)
  | some RowClass.noValid =>
      (st.1, ⟨st.2.noStock, st.2.noPrice, st.2.lowStock, st.2.noValid + 1⟩)

/-- The material loop of stepParseMerge over the parsed rows. -/
def parseMergeLoop (stock : List Char → Option ℤ)
    (price : List Char → Option PriceEntry) (rows : List MatRow) :
    List MatRow × SkipCounters :=
  rows.foldl (parseMergeStep stock price) ([], ⟨0, 0, 0, 0⟩)

/-- Sum of kept rows and all four skip counters of a loop state. -/
def countSum (st : List MatRow × SkipCounters) : ℕ :=
  st.1.length + st.2.noStock + st.2.noPrice + st.2.lowStock + st.2.noValid

/-- The products_total metric reported by stepParseMerge: the kept count
plus the sum of the skipped counters. -/
def productsTotalMetric (keptCount : ℕ) (c : SkipCounters) : ℕ :=
  keptCount + (c.noStock + c.noPrice + c.lowStock + c.noValid)

-- ===== Code enrichment (stepEanMapping, sync-step-runner lines 201-244) =====

/-- A pipeline product row as stored in the intermediate TSV table. -/
structure PRow where
  matnr : List Char
  mpn : List Char
  ean : List Char
  desc : List Char
  stock : ℤ
  lp : ℚ
  cbp : ℚ
  sur : ℚ
  pf : List Char
  pfnum : ℚ
  lpf : List Char
deriving DecidableEq

/-- The per-row enrichment of stepEanMapping: rows with an empty code and
a non-empty manufacturer code receive the mapped code when the mapping
table has one; every other row is untouched. -/
def eanMapRow (mmap : List Char → Option (List Char)) (p : PRow) : PRow :=
  if p.ean = [] ∧ p.mpn ≠ [] then
    match mmap p.mpn with
    | some v => { p with ean := v }
    | none => p
  else p

/-- stepEanMapping over the whole table: the full table is written back. -/
def stepEanMappingRows (mmap : List Char → Option (List Char))
    (ps : List PRow) : List PRow :=
  ps.map (eanMapRow mmap)

-- ===== Server-side dedup (stepExportEan, sync-step-runner lines 313-326) =====

/-- The byEAN JavaScript Map of stepExportEan, an insertion-ordered
association list of normalized code and stored product row. -/
abbrev PMap := List (List Char × PRow)

/-- Map.get for the stepExportEan map. -/
def pLookup (m : PMap) (k : List Char) : Option PRow :=
  match m with
  | [] => none
  | (k', v) :: t => if k' = k then some v else pLookup t k

/-- Map.set for the stepExportEan map: replace in place when the key is
present, append otherwise. -/
def pSet (m : PMap) (k : List Char) (v : PRow) : PMap :=
  match m with
  | [] => [(k, v)]
  | (k', w) :: t => if k' = k then (k, v) :: t else (k', w) :: pSet t k v

/-- True when the row's code fails the step-runner normalization. -/
def eanRejected (p : PRow) : Bool :=
  match normalizeEAN_runner p.ean with
  | .rejected _ => true
  | .accepted _ => false

/-- One iteration of the stepExportEan loop: a normalization failure only
bumps the discarded counter; an accepted code is stored (with the
normalized code written into the row) when the key is fresh or the new
final price is strictly greater, and otherwise the row is dropped with no
record of any kind. -/
def runnerDedupStep (st : PMap × ℕ) (p : PRow) : PMap × ℕ :=
  match normalizeEAN_runner p.ean with
  | .rejected _ => (st.1, st.2 + 1)
  | .accepted v =>
      match pLookup st.1 v with
      | none => (pSet st.1 v { p with ean := v }, st.2)
      | some existing =>
          if existing.pfnum < p.pfnum then (pSet st.1 v { p with ean := v }, st.2)
          else (st.1, st.2)

/-- The dedup loop of stepExportEan over the loaded products. -/
def stepExportEanDedup (products : List PRow) : PMap × ℕ :=
  products.foldl runnerDedupStep ([], 0)

/-- The same-code candidates among the products, in order, as the rows
stepExportEan would store (normalized code written in). -/
def runnerCandidates (products : List PRow) (k : List Char) : List PRow :=
  products.filterMap (fun p =>
    match normalizeEAN_runner p.ean with
    | .accepted v => if v = k then some { p with ean := v } else none
    | .rejected _ => none)

/-- The first candidate whose final price is greatest: with the
strictly-greater update rule, price ties retain the earlier-seen
candidate. -/
def earliestMaxP (l : List PRow) : Option PRow :=
  (l.filter (fun x => decide (∀ y ∈ l, y.pfnum ≤ x.pfnum))).head?

/-- Invariant carried through the stepExportEan fold: distinct keys, each
binding stores its own key, each key holds the earlier-ties price-maximal
candidate among the processed prefix, and the discarded counter counts
exactly the normalization failures (duplicate losers leave no trace). -/
def RunnerDedupInv (p : List PRow) (st : PMap × ℕ) : Prop :=
  (st.1.map Prod.fst).Nodup
  ∧ (∀ e ∈ st.1, e.2.ean = e.1)
  ∧ (∀ k, pLookup st.1 k = earliestMaxP (runnerCandidates p k))
  ∧ st.2 = (p.filter eanRejected).length

/-- Two sample rows sharing a valid 13-digit code and tied on the final
price, differing everywhere else. -/
def dupRowA : PRow :=
  ⟨"A1".toList, "M1".toList, "4006381333931".toList, "Widget".toList,
    5, 100, 90, 0, "13,00".toList, 13, "15".toList⟩

/-- The later-seen of the two tied sample rows. -/
def dupRowB : PRow :=
  ⟨"A2".toList, "M2".toList, "4006381333931".toList, "Gadget".toList,
    7, 101, 91, 0, "13,00".toList, 13, "16".toList⟩

-- ===== The Mediaworld export (stepExportMediaworld, lines 395-405) =====

/-- A catalog row as loaded by loadEanCatalog. -/
structure CRow where
  matnr : List Char
  mpn : List Char
  ean : List Char
  desc : List Char
  stock : ℤ
  lp : ℚ
  cbp : ℚ
  pf : List Char
  pfnum : ℚ
  lpf : List Char
deriving DecidableEq

/-- The skip condition of the Mediaworld export loop: the JavaScript
falsiness tests on the strings and the number become emptiness and
zero tests. -/
abbrev mwSkip (p : CRow) : Prop :=
  p.mpn = [] ∨ 40 < p.mpn.length ∨ p.ean = [] ∨ p.ean.length < 12
    ∨ p.stock ≤ 0 ∨ p.lpf = [] ∨ p.pfnum = 0

/-- The rows stepExportMediaworld emits. -/
def stepExportMediaworldRows (catalog : List CRow) : List CRow :=
  catalog.filter (fun p => decide (¬ mwSkip p))

/-- The SKU validation of the strict client-side formatter
(src/src/utils/mediaworldExport.ts): a missing SKU, an over-40-character
SKU or a path separator in the SKU raises a row error, which skips the
row. -/
abbrev mwUtilsSkuError (sku : List Char) : Prop :=
  sku = [] ∨ 40 < sku.length ∨ '/' ∈ sku

/-- A sample catalog row with a 45-character manufacturer code and
otherwise valid fields. -/
def mwSampleRow : CRow :=
  ⟨"A1".toList, List.replicate 45 'A', "0123456789012".toList, "Widget".toList,
    5, 100, 90, "132,99".toList, 13299 / 100, "147".toList⟩

-- ===== The HTTP dispatcher (serve, sync-step-runner lines 462-518) =====

/-- The six pipeline steps the dispatcher knows. -/
inductive StepName where
  | parse_merge
  | ean_mapping
  | pricing
  | export_ean
  | export_mediaworld
  | export_eprice
deriving DecidableEq

/-- The known step names, as strings. -/
def knownSteps : List (List Char) :=
  ["parse_merge".toList, "ean_mapping".toList, "pricing".toList,
   "export_ean".toList, "export_mediaworld".toList, "export_eprice".toList]

/-- The switch statement of the dispatcher, as a partial string match. -/
def parseStepName (s : List Char) : Option StepName :=
  if s = "parse_merge".toList then some .parse_merge
  else if s = "ean_mapping".toList then some .ean_mapping
  else if s = "pricing".toList then some .pricing
  else if s = "export_ean".toList then some .export_ean
  else if s = "export_mediaworld".toList then some .export_mediaworld
  else if s = "export_eprice".toList then some .export_eprice
  else none

/-- The request handler from serve, parametrized over the store type and
the step executors (the run record and every stored artifact live in the
store; each executor returns success and the next store). A missing
run_id or step is rejected with a 400, an unknown step name falls to the
default switch branch and is rejected with a 400 before any executor
runs; otherwise the executor's outcome maps to 200 or 500. -/
def handleRequest {σ : Type} (exec : StepName → σ → Bool × σ)
    (runId step : List Char) (st : σ) : ℕ × σ :=
  if runId = [] ∨ step = [] then (400, st)
  else
    match parseStepName step with
    | some s => ((if (exec s st).1 then 200 else 500), (exec s st).2)
    | none => (400, st)

-- ===== Helper lemmas =====

/-- Bounds characterizing `Math.floor (c / 100)` over the rationals. -/
theorem floorDiv100_bounds (c : ℤ) :
    ⌊(c : ℚ) / 100⌋ * 100 ≤ c ∧ c < ⌊(c : ℚ) / 100⌋ * 100 + 100 := by
  constructor
  · have h : ((⌊(c : ℚ) / 100⌋ : ℤ) : ℚ) ≤ (c : ℚ) / 100 := Int.floor_le _
    have h2 : ((⌊(c : ℚ) / 100⌋ : ℤ) : ℚ) * 100 ≤ (c : ℚ) := by linarith
    exact_mod_cast h2
  · have h : (c : ℚ) / 100 < ((⌊(c : ℚ) / 100⌋ : ℤ) : ℚ) + 1 := Int.lt_floor_add_one _
    have h2 : (c : ℚ) < ((⌊(c : ℚ) / 100⌋ : ℤ) : ℚ) * 100 + 100 := by linarith
    exact_mod_cast h2

/-- Looking up the key just set yields the new value. -/
theorem mapLookup_mapSet_self (m : EANMap) (k : List Char) (v : ERow × ℚ) :
    mapLookup (mapSet m k v) k = some v := by
  induction m with
  | nil => simp [mapSet, mapLookup]
  | cons e t ih =>
    obtain ⟨k', w⟩ := e
    by_cases h : k' = k
    · simp [mapSet, mapLookup, h]
    · simp [mapSet, mapLookup, h, ih]

/-- Setting one key leaves every other key's binding unchanged. -/
theorem mapLookup_mapSet_ne (m : EANMap) (k k' : List Char) (v : ERow × ℚ)
    (h : k' ≠ k) : mapLookup (mapSet m k v) k' = mapLookup m k' := by
  have hk : ¬ k = k' := fun hh => h hh.symm
  induction m with
  | nil => simp [mapSet, mapLookup, hk]
  | cons e t ih =>
    obtain ⟨k0, w⟩ := e
    by_cases h0 : k0 = k
    · subst h0
      simp [mapSet, mapLookup, hk]
    · simp only [mapSet, if_neg h0, mapLookup]
      by_cases h1 : k0 = k'
      · simp [h1]
      · simp [h1, ih]

/-- A lookup misses exactly when the key is absent. -/
theorem mapLookup_eq_none_iff (m : EANMap) (k : List Char) :
    mapLookup m k = none ↔ k ∉ m.map Prod.fst := by
  induction m with
  | nil => simp [mapLookup]
  | cons e t ih =>
    obtain ⟨k', w⟩ := e
    rw [List.map_cons, List.mem_cons, mapLookup]
    by_cases h : k' = k
    · rw [if_pos h]
      constructor
      · intro hh
        exact absurd hh (by simp)
      · intro hh
        exact absurd (Or.inl h.symm) hh
    · rw [if_neg h, ih]
      constructor
      · intro hh hor
        rcases hor with hor | hor
        · exact h hor.symm
        · exact hh hor
      · intro hh hmem
        exact hh (Or.inr hmem)

/-- Setting an absent key appends the binding. -/
theorem mapSet_absent (m : EANMap) (k : List Char) (v : ERow × ℚ)
    (h : mapLookup m k = none) : mapSet m k v = m ++ [(k, v)] := by
  induction m with
  | nil => simp [mapSet]
  | cons e t ih =>
    obtain ⟨k', w⟩ := e
    by_cases h0 : k' = k
    · subst h0
      simp [mapLookup] at h
    · simp only [mapLookup, if_neg h0] at h
      rw [mapSet, if_neg h0, ih h]
      simp

/-- Setting a present key rewrites the binding in place. -/
theorem mapSet_present (m : EANMap) (k : List Char) (w v : ERow × ℚ)
    (h : mapLookup m k = some w) :
    ∃ m1 m2, m = m1 ++ (k, w) :: m2 ∧ mapSet m k v = m1 ++ (k, v) :: m2 := by
  induction m with
  | nil => simp [mapLookup] at h
  | cons e t ih =>
    obtain ⟨k', u⟩ := e
    by_cases h0 : k' = k
    · subst h0
      rw [mapLookup] at h
      simp at h
      subst h
      refine ⟨[], t, by simp, ?_⟩
      rw [mapSet, if_pos rfl]
      rfl
    · simp only [mapLookup, if_neg h0] at h
      obtain ⟨m1, m2, he, hs⟩ := ih h
      refine ⟨(k', u) :: m1, m2, by rw [he]; rfl, ?_⟩
      rw [mapSet, if_neg h0, hs]
      rfl

/-- A non-empty candidate list has a price-greatest element. -/
theorem exists_price_max (l : List (ERow × ℚ)) (h : l ≠ []) :
    ∃ x ∈ l, ∀ y ∈ l, y.2 ≤ x.2 := by
  induction l with
  | nil => exact absurd rfl h
  | cons a t ih =>
    rcases eq_or_ne t [] with rfl | ht
    · exact ⟨a, by simp, by simp⟩
    · obtain ⟨x, hx, hmax⟩ := ih ht
      rcases le_total x.2 a.2 with hle | hle
      · refine ⟨a, by simp, ?_⟩
        intro y hy
        rcases List.mem_cons.mp hy with rfl | hy
        · exact le_refl _
        · exact le_trans (hmax y hy) hle
      · refine ⟨x, List.mem_cons_of_mem _ hx, ?_⟩
        intro y hy
        rcases List.mem_cons.mp hy with rfl | hy
        · exact hle
        · exact hmax y hy

/-- latestMax misses exactly on the empty list. -/
theorem latestMax_eq_none (l : List (ERow × ℚ)) (h : latestMax l = none) :
    l = [] := by
  by_contra hne
  obtain ⟨x, hx, hmax⟩ := exists_price_max l hne
  have hmem : x ∈ l.filter (fun x => decide (∀ y ∈ l, y.2 ≤ x.2)) :=
    List.mem_filter.mpr ⟨hx, by simpa using hmax⟩
  have : l.filter (fun x => decide (∀ y ∈ l, y.2 ≤ x.2)) ≠ [] := by
    intro hnil
    rw [hnil] at hmem
    exact absurd hmem (List.not_mem_nil x)
  rw [latestMax, List.getLast?_eq_none_iff] at h
  exact this h

/-- latestMax of a single candidate is that candidate. -/
theorem latestMax_singleton (x : ERow × ℚ) : latestMax [x] = some x := by
  simp [latestMax]

/-- The latestMax candidate belongs to the list and dominates every
price. -/
theorem latestMax_mem_max (l : List (ERow × ℚ)) (b : ERow × ℚ)
    (h : latestMax l = some b) : b ∈ l ∧ ∀ y ∈ l, y.2 ≤ b.2 := by
  rw [latestMax] at h
  obtain ⟨hne, heq⟩ := List.mem_getLast?_eq_getLast (Option.mem_def.mpr h)
  have hmem : b ∈ l.filter (fun x => decide (∀ y ∈ l, y.2 ≤ x.2)) := by
    rw [heq]
    exact List.getLast_mem hne
  have hf := List.mem_filter.mp hmem
  exact ⟨hf.1, by simpa using hf.2⟩

/-- Appending a candidate that dominates every price makes it the
latestMax, whether or not it ties an earlier maximum. -/
theorem latestMax_append_ge (l : List (ERow × ℚ)) (x : ERow × ℚ)
    (h : ∀ y ∈ l, y.2 ≤ x.2) : latestMax (l ++ [x]) = some x := by
  rw [latestMax, List.filter_append]
  have hx : (∀ y ∈ l ++ [x], y.2 ≤ x.2) := by
    intro y hy
    rcases List.mem_append.mp hy with hy | hy
    · exact h y hy
    · rw [List.mem_singleton.mp hy]
  have hfx : ([x].filter (fun z => decide (∀ y ∈ l ++ [x], y.2 ≤ z.2))) = [x] := by
    rw [List.filter_cons, if_pos (decide_eq_true hx), List.filter_nil]
  rw [hfx, List.getLast?_append_cons]
  rfl

/-- Appending a strictly cheaper candidate leaves the latestMax
unchanged. -/
theorem latestMax_append_lt (l : List (ERow × ℚ)) (b x : ERow × ℚ)
    (hb : latestMax l = some b) (hx : x.2 < b.2) :
    latestMax (l ++ [x]) = some b := by
  obtain ⟨hbmem, hbmax⟩ := latestMax_mem_max l b hb
  rw [latestMax, List.filter_append]
  have hxf : ([x].filter (fun z => decide (∀ y ∈ l ++ [x], y.2 ≤ z.2))) = [] := by
    have hnx : ¬ (∀ y ∈ l ++ [x], y.2 ≤ x.2) := by
      intro hall
      exact absurd (hall b (List.mem_append.mpr (Or.inl hbmem))) (not_le.mpr hx)
    rw [List.filter_cons, if_neg (by simpa using hnx), List.filter_nil]
  have hlf : (l.filter (fun z => decide (∀ y ∈ l ++ [x], y.2 ≤ z.2)))
      = (l.filter (fun z => decide (∀ y ∈ l, y.2 ≤ z.2))) := by
    apply List.filter_congr
    intro z hz
    rw [decide_eq_decide]
    constructor
    · intro hall y hy
      exact hall y (List.mem_append.mpr (Or.inl hy))
    · intro hall y hy
      rcases List.mem_append.mp hy with hy | hy
      · exact hall y hy
      · rw [List.mem_singleton.mp hy]
        exact le_trans (le_of_lt hx) (hall b hbmem)
  rw [hxf, hlf, List.append_nil]
  exact hb

/-- Appending a row to the processed prefix extends the same-key
candidates exactly when the keys agree. -/
theorem candidatesFor_append (f : ERow → ℚ) (p : List ERow) (r : ERow)
    (k : List Char) :
    candidatesFor f (p ++ [r]) k
      = candidatesFor f p k ++ (if r.ean = k then [(r, f r)] else []) := by
  by_cases h : r.ean = k <;>
    simp [candidatesFor, List.filter_append, h]

/-- Coercion of a list with a distinguished middle element. -/
theorem coe_append_cons (A B : List (ERow × ℚ)) (x : ERow × ℚ) :
    ((A ++ x :: B : List (ERow × ℚ)) : Multiset (ERow × ℚ)) = x ::ₘ ↑(A ++ B) := by
  rw [Multiset.cons_coe]
  exact Multiset.coe_eq_coe.mpr List.perm_middle

/-- mapValues distributes over the in-place decomposition. -/
theorem mapValues_append_cons (m1 m2 : EANMap) (k : List Char) (v : ERow × ℚ) :
    mapValues (m1 ++ (k, v) :: m2) = mapValues m1 ++ v :: mapValues m2 := by
  simp [mapValues]

/-- One dedup iteration preserves the invariant. -/
theorem dedupStep_inv (f : ERow → ℚ) (p : List ERow) (st : EANMap × List DupDiscard)
    (r : ERow) (h : DedupInv f p st) : DedupInv f (p ++ [r]) (dedupStep f st r) := by
  obtain ⟨m, d⟩ := st
  obtain ⟨hnd, hself, hlook, hacct⟩ := h
  cases hm : mapLookup m r.ean with
  | none =>
    have hstep : dedupStep f (m, d) r = (mapSet m r.ean (r, f r), d) := by
      simp [dedupStep, hm]
    rw [hstep]
    have hcand : candidatesFor f p r.ean = [] := by
      have hl := hlook r.ean
      rw [hm] at hl
      exact latestMax_eq_none _ hl.symm
    have habs := mapSet_absent m r.ean (r, f r) hm
    have hnotin : r.ean ∉ m.map Prod.fst := (mapLookup_eq_none_iff m r.ean).mp hm
    refine ⟨?_, ?_, ?_, ?_⟩
    · show ((mapSet m r.ean (r, f r)).map Prod.fst).Nodup
      rw [habs, List.map_append, List.map_cons, List.map_nil, List.nodup_append]
      refine ⟨hnd, List.nodup_singleton _, ?_⟩
      intro a ha hb
      rw [List.mem_singleton] at hb
      subst hb
      exact hnotin ha
    · intro e he
      rw [habs] at he
      rcases List.mem_append.mp he with he | he
      · exact hself e he
      · rw [List.mem_singleton] at he
        subst he
        exact ⟨rfl, rfl⟩
    · intro k
      by_cases hk : k = r.ean
      · subst hk
        rw [mapLookup_mapSet_self, candidatesFor_append, hcand, if_pos rfl,
          List.nil_append, latestMax_singleton]
      · rw [mapLookup_mapSet_ne m r.ean k (r, f r) hk, candidatesFor_append,
          if_neg (fun hh => hk hh.symm), List.append_nil]
        exact hlook k
    · show (mapValues (mapSet m r.ean (r, f r)) : Multiset (ERow × ℚ)) + ↑(discPairs d)
        = ↑(rowPairs f (p ++ [r]))
      rw [habs]
      have h1 : mapValues (m ++ [(r.ean, r, f r)]) = mapValues m ++ [(r, f r)] := by
        simp [mapValues]
      have h2 : rowPairs f (p ++ [r]) = rowPairs f p ++ [(r, f r)] := by
        simp [rowPairs]
      rw [h1, h2, ← Multiset.coe_add, ← Multiset.coe_add, add_right_comm, hacct]
  | some prev =>
    have hl := hlook r.ean
    rw [hm] at hl
    have hlat : latestMax (candidatesFor f p r.ean) = some prev := hl.symm
    obtain ⟨hpmem, hpmax⟩ := latestMax_mem_max _ _ hlat
    by_cases hcmp : prev.2 ≤ f r
    · have hstep : dedupStep f (m, d) r
          = (mapSet m r.ean (r, f r), d ++ [⟨prev.1, prev.2⟩]) := by
        simp [dedupStep, hm, hcmp]
      rw [hstep]
      obtain ⟨m1, m2, hdec, hset⟩ := mapSet_present m r.ean prev (r, f r) hm
      refine ⟨?_, ?_, ?_, ?_⟩
      · show ((mapSet m r.ean (r, f r)).map Prod.fst).Nodup
        rw [hset, List.map_append, List.map_cons]
        rw [hdec, List.map_append, List.map_cons] at hnd
        exact hnd
      · intro e he
        rw [hset] at he
        rcases List.mem_append.mp he with he | he
        · refine hself e ?_
          rw [hdec]
          exact List.mem_append.mpr (Or.inl he)
        · rcases List.mem_cons.mp he with he | he
          · subst he
            exact ⟨rfl, rfl⟩
          · refine hself e ?_
            rw [hdec]
            exact List.mem_append.mpr (Or.inr (List.mem_cons_of_mem _ he))
      · intro k
        by_cases hk : k = r.ean
        · subst hk
          rw [mapLookup_mapSet_self, candidatesFor_append, if_pos rfl]
          have hge : ∀ y ∈ candidatesFor f p r.ean, y.2 ≤ (r, f r).2 := by
            intro y hy
            exact le_trans (hpmax y hy) hcmp
          exact (latestMax_append_ge _ _ hge).symm
        · rw [mapLookup_mapSet_ne m r.ean k (r, f r) hk, candidatesFor_append,
            if_neg (fun hh => hk hh.symm), List.append_nil]
          exact hlook k
      · show (mapValues (mapSet m r.ean (r, f r)) : Multiset (ERow × ℚ))
            + ↑(discPairs (d ++ [⟨prev.1, prev.2⟩]))
          = ↑(rowPairs f (p ++ [r]))
        have hd : discPairs (d ++ [⟨prev.1, prev.2⟩]) = discPairs d ++ [prev] := by
          simp [discPairs]
        have h2 : rowPairs f (p ++ [r]) = rowPairs f p ++ [(r, f r)] := by
          simp [rowPairs]
        rw [hset, mapValues_append_cons, hd, h2, coe_append_cons,
          ← Multiset.coe_add, ← Multiset.coe_add, ← Multiset.coe_add, ← hacct]
        rw [show (mapValues m : Multiset (ERow × ℚ))
            = prev ::ₘ ↑(mapValues m1 ++ mapValues m2) from by
          rw [hdec, mapValues_append_cons, coe_append_cons]]
        rw [Multiset.coe_singleton, Multiset.coe_singleton,
          ← Multiset.singleton_add, ← Multiset.singleton_add, ← Multiset.coe_add]
        abel
    · have hlt : f r < prev.2 := not_le.mp hcmp
      have hstep : dedupStep f (m, d) r = (mapSet m r.ean prev, d ++ [⟨r, f r⟩]) := by
        simp [dedupStep, hm, hcmp]
      obtain ⟨m1, m2, hdec, hset⟩ := mapSet_present m r.ean prev prev hm
      have hsame : mapSet m r.ean prev = m := by
        rw [hset, ← hdec]
      rw [hstep, hsame]
      refine ⟨hnd, hself, ?_, ?_⟩
      · intro k
        by_cases hk : k = r.ean
        · subst hk
          rw [hm, candidatesFor_append, if_pos rfl]
          exact (latestMax_append_lt (candidatesFor f p r.ean) prev (r, f r) hlat hlt).symm
        · rw [candidatesFor_append, if_neg (fun hh => hk hh.symm), List.append_nil]
          exact hlook k
      · show (mapValues m : Multiset (ERow × ℚ)) + ↑(discPairs (d ++ [⟨r, f r⟩]))
          = ↑(rowPairs f (p ++ [r]))
        have hd : discPairs (d ++ [⟨r, f r⟩]) = discPairs d ++ [(r, f r)] := by
          simp [discPairs]
        have h2 : rowPairs f (p ++ [r]) = rowPairs f p ++ [(r, f r)] := by
          simp [rowPairs]
        rw [hd, h2, ← Multiset.coe_add, ← Multiset.coe_add, ← add_assoc, hacct]

/-- The dedup fold preserves the invariant along any suffix. -/
theorem dedupFold_inv (f : ERow → ℚ) (l : List ERow) :
    ∀ (p : List ERow) (st : EANMap × List DupDiscard), DedupInv f p st →
      DedupInv f (p ++ l) (List.foldl (dedupStep f) st l) := by
  induction l with
  | nil =>
    intro p st h
    simpa using h
  | cons a t ih =>
    intro p st h
    have h1 := dedupStep_inv f p st a h
    have h2 := ih (p ++ [a]) (dedupStep f st a) h1
    rw [List.foldl_cons]
    rw [List.append_assoc] at h2
    simpa using h2

/-- The invariant holds of the finished dedup state. -/
theorem dedup_inv_holds (f : ERow → ℚ) (valid : List ERow) :
    DedupInv f valid (dedupByEAN f valid) := by
  have h0 : DedupInv f [] ([], []) := by
    refine ⟨List.nodup_nil, by simp, ?_, by simp [mapValues, discPairs, rowPairs]⟩
    intro k
    rfl
  have hf := dedupFold_inv f valid [] ([], []) h0
  simpa [dedupByEAN] using hf

/-- A row is skipped without counting exactly when its key is blank. -/
theorem classifyRow_eq_none_iff (stock : List Char → Option ℤ)
    (price : List Char → Option PriceEntry) (r : MatRow) :
    classifyRow stock price r = none ↔ r.matnr = [] := by
  rw [classifyRow]
  split_ifs <;> simp_all

/-- Each considered row adds exactly one to the kept-plus-skipped sum. -/
theorem parseMergeLoop_count (stock : List Char → Option ℤ)
    (price : List Char → Option PriceEntry) (l : List MatRow) :
    ∀ st : List MatRow × SkipCounters,
      countSum (List.foldl (parseMergeStep stock price) st l)
        = countSum st + (l.filter (fun r => decide (¬ r.matnr = []))).length := by
  induction l with
  | nil =>
    intro st
    simp
  | cons r t ih =>
    intro st
    rw [List.foldl_cons, List.filter_cons, ih (parseMergeStep stock price st r)]
    by_cases h : r.matnr = []
    · have hc : classifyRow stock price r = none :=
        (classifyRow_eq_none_iff stock price r).mpr h
      have hstep : parseMergeStep stock price st r = st := by
        simp [parseMergeStep, hc]
      rw [hstep]
      simp [h]
    · rcases ho : classifyRow stock price r with _ | cl
      · exact absurd ((classifyRow_eq_none_iff stock price r).mp ho) h
      · have hone : countSum (parseMergeStep stock price st r) = countSum st + 1 := by
          cases cl <;> simp [parseMergeStep, ho, countSum] <;> omega
        rw [hone]
        simp only [h, decide_not, decide_False]
        simp [List.length_cons]
        omega

/-- Looking up the key just set in the stepExportEan map yields the new
value. -/
theorem pLookup_pSet_self (m : PMap) (k : List Char) (v : PRow) :
    pLookup (pSet m k v) k = some v := by
  induction m with
  | nil => simp [pSet, pLookup]
  | cons e t ih =>
    obtain ⟨k', w⟩ := e
    by_cases h : k' = k
    · simp [pSet, pLookup, h]
    · simp [pSet, pLookup, h, ih]

/-- Setting one key of the stepExportEan map leaves every other binding
unchanged. -/
theorem pLookup_pSet_ne (m : PMap) (k k' : List Char) (v : PRow)
    (h : k' ≠ k) : pLookup (pSet m k v) k' = pLookup m k' := by
  have hk : ¬ k = k' := fun hh => h hh.symm
  induction m with
  | nil => simp [pSet, pLookup, hk]
  | cons e t ih =>
    obtain ⟨k0, w⟩ := e
    by_cases h0 : k0 = k
    · subst h0
      simp [pSet, pLookup, hk]
    · simp only [pSet, if_neg h0, pLookup]
      by_cases h1 : k0 = k'
      · simp [h1]
      · simp [h1, ih]

/-- A lookup in the stepExportEan map misses exactly when the key is
absent. -/
theorem pLookup_eq_none_iff (m : PMap) (k : List Char) :
    pLookup m k = none ↔ k ∉ m.map Prod.fst := by
  induction m with
  | nil => simp [pLookup]
  | cons e t ih =>
    obtain ⟨k', w⟩ := e
    rw [List.map_cons, List.mem_cons, pLookup]
    by_cases h : k' = k
    · rw [if_pos h]
      constructor
      · intro hh
        exact absurd hh (by simp)
      · intro hh
        exact absurd (Or.inl h.symm) hh
    · rw [if_neg h, ih]
      constructor
      · intro hh hor
        rcases hor with hor | hor
        · exact h hor.symm
        · exact hh hor
      · intro hh hmem
        exact hh (Or.inr hmem)

/-- Setting an absent key in the stepExportEan map appends the binding. -/
theorem pSet_absent (m : PMap) (k : List Char) (v : PRow)
    (h : pLookup m k = none) : pSet m k v = m ++ [(k, v)] := by
  induction m with
  | nil => simp [pSet]
  | cons e t ih =>
    obtain ⟨k', w⟩ := e
    by_cases h0 : k' = k
    · subst h0
      simp [pLookup] at h
    · simp only [pLookup, if_neg h0] at h
      rw [pSet, if_neg h0, ih h]
      simp

/-- Setting a present key of the stepExportEan map rewrites the binding
in place. -/
theorem pSet_present (m : PMap) (k : List Char) (w v : PRow)
    (h : pLookup m k = some w) :
    ∃ m1 m2, m = m1 ++ (k, w) :: m2 ∧ pSet m k v = m1 ++ (k, v) :: m2 := by
  induction m with
  | nil => simp [pLookup] at h
  | cons e t ih =>
    obtain ⟨k', u⟩ := e
    by_cases h0 : k' = k
    · subst h0
      rw [pLookup] at h
      simp at h
      subst h
      refine ⟨[], t, by simp, ?_⟩
      rw [pSet, if_pos rfl]
      rfl
    · simp only [pLookup, if_neg h0] at h
      obtain ⟨m1, m2, he, hs⟩ := ih h
      refine ⟨(k', u) :: m1, m2, by rw [he]; rfl, ?_⟩
      rw [pSet, if_neg h0, hs]
      rfl

/-- A non-empty product list has a price-greatest element. -/
theorem exists_pfnum_max (l : List PRow) (h : l ≠ []) :
    ∃ x ∈ l, ∀ y ∈ l, y.pfnum ≤ x.pfnum := by
  induction l with
  | nil => exact absurd rfl h
  | cons a t ih =>
    rcases eq_or_ne t [] with rfl | ht
    · exact ⟨a, by simp, by simp⟩
    · obtain ⟨x, hx, hmax⟩ := ih ht
      rcases le_total x.pfnum a.pfnum with hle | hle
      · refine ⟨a, by simp, ?_⟩
        intro y hy
        rcases List.mem_cons.mp hy with rfl | hy
        · exact le_refl _
        · exact le_trans (hmax y hy) hle
      · refine ⟨x, List.mem_cons_of_mem _ hx, ?_⟩
        intro y hy
        rcases List.mem_cons.mp hy with rfl | hy
        · exact hle
        · exact hmax y hy

/-- earliestMaxP misses exactly on the empty list. -/
theorem earliestMaxP_eq_none (l : List PRow) (h : earliestMaxP l = none) :
    l = [] := by
  by_contra hne
  obtain ⟨x, hx, hmax⟩ := exists_pfnum_max l hne
  have hmem : x ∈ l.filter (fun x => decide (∀ y ∈ l, y.pfnum ≤ x.pfnum)) :=
    List.mem_filter.mpr ⟨hx, by simpa using hmax⟩
  rw [earliestMaxP, List.head?_eq_none_iff] at h
  rw [h] at hmem
  exact absurd hmem (List.not_mem_nil x)

/-- earliestMaxP of a single candidate is that candidate. -/
theorem earliestMaxP_singleton (x : PRow) : earliestMaxP [x] = some x := by
  simp [earliestMaxP]

/-- The earliestMaxP candidate belongs to the list and dominates every
price. -/
theorem earliestMaxP_mem_max (l : List PRow) (b : PRow)
    (h : earliestMaxP l = some b) : b ∈ l ∧ ∀ y ∈ l, y.pfnum ≤ b.pfnum := by
  rw [earliestMaxP] at h
  have hmem : b ∈ l.filter (fun x => decide (∀ y ∈ l, y.pfnum ≤ x.pfnum)) := by
    cases hf : l.filter (fun x => decide (∀ y ∈ l, y.pfnum ≤ x.pfnum)) with
    | nil =>
      rw [hf] at h
      cases h
    | cons a t =>
      rw [hf, List.head?_cons, Option.some.injEq] at h
      rw [← h]
      exact List.mem_cons_self a t
  have hfm := List.mem_filter.mp hmem
  exact ⟨hfm.1, by simpa using hfm.2⟩

/-- Appending a strictly greater candidate makes it the earliestMaxP. -/
theorem earliestMaxP_append_gt (l : List PRow) (x : PRow)
    (h : ∀ y ∈ l, y.pfnum < x.pfnum) : earliestMaxP (l ++ [x]) = some x := by
  rw [earliestMaxP, List.filter_append]
  have hfl : (l.filter (fun z => decide (∀ y ∈ l ++ [x], y.pfnum ≤ z.pfnum))) = [] := by
    rw [List.filter_eq_nil_iff]
    intro z hz
    simp only [decide_eq_true_eq, not_forall]
    refine ⟨x, List.mem_append.mpr (Or.inr (List.mem_singleton_self x)), ?_⟩
    exact not_le.mpr (h z hz)
  have hfx : ([x].filter (fun z => decide (∀ y ∈ l ++ [x], y.pfnum ≤ z.pfnum))) = [x] := by
    have hx : ∀ y ∈ l ++ [x], y.pfnum ≤ x.pfnum := by
      intro y hy
      rcases List.mem_append.mp hy with hy | hy
      · exact le_of_lt (h y hy)
      · rw [List.mem_singleton.mp hy]
    rw [List.filter_cons, if_pos (decide_eq_true hx), List.filter_nil]
  rw [hfl, hfx]
  rfl

/-- Appending a candidate that does not exceed the current maximum leaves
the earliestMaxP unchanged: a price tie keeps the earlier-seen
candidate. -/
theorem earliestMaxP_append_le (l : List PRow) (b x : PRow)
    (hb : earliestMaxP l = some b) (hx : x.pfnum ≤ b.pfnum) :
    earliestMaxP (l ++ [x]) = some b := by
  obtain ⟨hbmem, hbmax⟩ := earliestMaxP_mem_max l b hb
  rw [earliestMaxP, List.filter_append]
  have hlf : (l.filter (fun z => decide (∀ y ∈ l ++ [x], y.pfnum ≤ z.pfnum)))
      = (l.filter (fun z => decide (∀ y ∈ l, y.pfnum ≤ z.pfnum))) := by
    apply List.filter_congr
    intro z hz
    rw [decide_eq_decide]
    constructor
    · intro hall y hy
      exact hall y (List.mem_append.mpr (Or.inl hy))
    · intro hall y hy
      rcases List.mem_append.mp hy with hy | hy
      · exact hall y hy
      · rw [List.mem_singleton.mp hy]
        exact le_trans hx (hall b hbmem)
  rw [hlf]
  cases hf : l.filter (fun z => decide (∀ y ∈ l, y.pfnum ≤ z.pfnum)) with
  | nil =>
    rw [earliestMaxP, hf] at hb
    cases hb
  | cons a t =>
    rw [earliestMaxP, hf] at hb
    exact hb

/-- Appending a product extends the same-code candidates exactly when its
code normalizes to the key. -/
theorem runnerCandidates_append (products : List PRow) (p : PRow) (k : List Char) :
    runnerCandidates (products ++ [p]) k
      = runnerCandidates products k
        ++ (match normalizeEAN_runner p.ean with
            | .accepted v => if v = k then [{ p with ean := v }] else []
            | .rejected _ => []) := by
  rw [runnerCandidates, runnerCandidates, List.filterMap_append]
  congr 1
  rcases hn : normalizeEAN_runner p.ean with reason | v
  · simp [hn]
  · by_cases hv : v = k
    · simp [hn, hv]
    · simp [hn, hv]

/-- One stepExportEan iteration preserves the invariant. -/
theorem runnerStep_inv (p : List PRow) (st : PMap × ℕ) (r : PRow)
    (h : RunnerDedupInv p st) : RunnerDedupInv (p ++ [r]) (runnerDedupStep st r) := by
  obtain ⟨m, c⟩ := st
  obtain ⟨hnd, hself, hlook, hcnt⟩ := h
  rcases hn : normalizeEAN_runner r.ean with reason | v
  · have hstep : runnerDedupStep (m, c) r = (m, c + 1) := by
      simp [runnerDedupStep, hn]
    rw [hstep]
    refine ⟨hnd, hself, ?_, ?_⟩
    · intro k
      simp only [runnerCandidates_append, hn, List.append_nil]
      exact hlook k
    · have hc : c = (List.filter eanRejected p).length := hcnt
      simp [List.filter_append, eanRejected, hn, hc]
  · rcases hm : pLookup m v with _ | existing
    · have hstep : runnerDedupStep (m, c) r = (pSet m v { r with ean := v }, c) := by
        simp [runnerDedupStep, hn, hm]
      rw [hstep]
      have hcand0 : runnerCandidates p v = [] := by
        have hl := hlook v
        rw [hm] at hl
        exact earliestMaxP_eq_none _ hl.symm
      have habs := pSet_absent m v { r with ean := v } hm
      have hnotin : v ∉ m.map Prod.fst := (pLookup_eq_none_iff m v).mp hm
      refine ⟨?_, ?_, ?_, ?_⟩
      · rw [habs, List.map_append, List.map_cons, List.map_nil, List.nodup_append]
        refine ⟨hnd, List.nodup_singleton _, ?_⟩
        intro a ha hb
        rw [List.mem_singleton] at hb
        subst hb
        exact hnotin ha
      · intro e he
        rw [habs] at he
        rcases List.mem_append.mp he with he | he
        · exact hself e he
        · rw [List.mem_singleton] at he
          subst he
          rfl
      · intro k
        by_cases hk : k = v
        · subst hk
          rw [pLookup_pSet_self]
          simp only [runnerCandidates_append, hn, hcand0, List.nil_append,
            eq_self_iff_true, if_true]
          exact (earliestMaxP_singleton _).symm
        · rw [pLookup_pSet_ne m v k _ hk]
          simp only [runnerCandidates_append, hn]
          rw [if_neg (fun hh => hk hh.symm), List.append_nil]
          exact hlook k
      · have hc : c = (List.filter eanRejected p).length := hcnt
        simp [List.filter_append, eanRejected, hn, hc]
    · have hl := hlook v
      rw [hm] at hl
      have hemax : earliestMaxP (runnerCandidates p v) = some existing := hl.symm
      obtain ⟨hexm, hexmax⟩ := earliestMaxP_mem_max _ _ hemax
      by_cases hcmp : existing.pfnum < r.pfnum
      · have hstep : runnerDedupStep (m, c) r = (pSet m v { r with ean := v }, c) := by
          simp [runnerDedupStep, hn, hm, hcmp]
        rw [hstep]
        obtain ⟨m1, m2, hdec, hset⟩ := pSet_present m v existing { r with ean := v } hm
        refine ⟨?_, ?_, ?_, ?_⟩
        · rw [hset, List.map_append, List.map_cons]
          rw [hdec, List.map_append, List.map_cons] at hnd
          exact hnd
        · intro e he
          rw [hset] at he
          rcases List.mem_append.mp he with he | he
          · refine hself e ?_
            rw [hdec]
            exact List.mem_append.mpr (Or.inl he)
          · rcases List.mem_cons.mp he with he | he
            · subst he
              rfl
            · refine hself e ?_
              rw [hdec]
              exact List.mem_append.mpr (Or.inr (List.mem_cons_of_mem _ he))
        · intro k
          by_cases hk : k = v
          · subst hk
            rw [pLookup_pSet_self]
            simp only [runnerCandidates_append, hn, eq_self_iff_true, if_true]
            have hgt : ∀ y ∈ runnerCandidates p k,
                y.pfnum < ({ r with ean := k } : PRow).pfnum := by
              intro y hy
              exact lt_of_le_of_lt (hexmax y hy) hcmp
            exact (earliestMaxP_append_gt _ _ hgt).symm
          · rw [pLookup_pSet_ne m v k _ hk]
            simp only [runnerCandidates_append, hn]
            rw [if_neg (fun hh => hk hh.symm), List.append_nil]
            exact hlook k
        · have hc : c = (List.filter eanRejected p).length := hcnt
          simp [List.filter_append, eanRejected, hn, hc]
      · have hstep : runnerDedupStep (m, c) r = (m, c) := by
          simp [runnerDedupStep, hn, hm, hcmp]
        rw [hstep]
        refine ⟨hnd, hself, ?_, ?_⟩
        · intro k
          by_cases hk : k = v
          · subst hk
            rw [hm]
            simp only [runnerCandidates_append, hn, eq_self_iff_true, if_true]
            have hle : ({ r with ean := k } : PRow).pfnum ≤ existing.pfnum :=
              not_lt.mp hcmp
            exact (earliestMaxP_append_le _ existing _ hemax hle).symm
          · simp only [runnerCandidates_append, hn]
            rw [if_neg (fun hh => hk hh.symm), List.append_nil]
            exact hlook k
        · have hc : c = (List.filter eanRejected p).length := hcnt
          simp [List.filter_append, eanRejected, hn, hc]

/-- The stepExportEan fold preserves the invariant along any suffix. -/
theorem runnerFold_inv (l : List PRow) :
    ∀ (p : List PRow) (st : PMap × ℕ), RunnerDedupInv p st →
      RunnerDedupInv (p ++ l) (List.foldl runnerDedupStep st l) := by
  induction l with
  | nil =>
    intro p st h
    simpa using h
  | cons a t ih =>
    intro p st h
    have h1 := runnerStep_inv p st a h
    have h2 := ih (p ++ [a]) (runnerDedupStep st a) h1
    rw [List.foldl_cons]
    rw [List.append_assoc] at h2
    simpa using h2

/-- The invariant holds of the finished stepExportEan state. -/
theorem runner_inv_holds (products : List PRow) :
    RunnerDedupInv products (stepExportEanDedup products) := by
  have h0 : RunnerDedupInv [] ([], 0) := by
    refine ⟨List.nodup_nil, by simp, ?_, by simp⟩
    intro k
    rfl
  have hf := runnerFold_inv products [] ([], 0) h0
  simpa [stepExportEanDedup] using hf

-- ===== Claim theorems =====

/-- C1: for every finite input v > 0, the `.99`-forcing operation returns a
price whose integer-cent value modulo 100 equals 99 and which is at least
the rounded cent value of v; likewise the integer-cent variant used by the
sync-step-runner. -/
theorem toComma99Cents_mod100 (v : ℚ) (hv : 0 < v) :
    (∃ c : ℤ, toComma99Cents v = some ((c : ℚ) / 100) ∧ c % 100 = 99 ∧ roundToCentsZ v ≤ c)
    ∧ ∀ n : ℤ, toComma99CentsRunner n % 100 = 99 ∧ n ≤ toComma99CentsRunner n := by
  constructor
  · refine ⟨⌊((roundToCentsZ v : ℤ) : ℚ) / 100⌋ * 100 + 99, ?_, ?_, ?_⟩
    · have hb := floorDiv100_bounds (roundToCentsZ v)
      simp only [toComma99Cents]
      rw [if_neg (not_le.mpr hv), if_neg (by omega)]
    · omega
    · have hb := floorDiv100_bounds (roundToCentsZ v)
      omega
  · intro n
    by_cases h : n % 100 = 99
    · simp only [toComma99CentsRunner, if_pos h]
      exact ⟨h, le_refl n⟩
    · have hb := floorDiv100_bounds n
      simp only [toComma99CentsRunner, if_neg h]
      rw [if_neg (by omega)]
      constructor
      · omega
      · omega

/-- Witness for C1 at the concrete input v = 3. -/
theorem toComma99Cents_mod100_witness :
    (∃ c : ℤ, toComma99Cents 3 = some ((c : ℚ) / 100) ∧ c % 100 = 99 ∧ roundToCentsZ 3 ≤ c)
    ∧ ∀ n : ℤ, toComma99CentsRunner n % 100 = 99 ∧ n ≤ toComma99CentsRunner n :=
  toComma99Cents_mod100 3 (by norm_num)

/-- C10: for every finite input v > 0 the first candidate euros*100+99 is
already at least the rounded cents, the result of the `.99` forcing is that
first candidate (the advance-to-next-euro branch is never taken), and the
result exceeds the rounded cents by at most 99; the integer-cent variant of
the sync-step-runner likewise never exceeds its input by more than 99. -/
theorem toComma99Cents_no_advance (v : ℚ) (hv : 0 < v) :
    (roundToCentsZ v ≤ ⌊((roundToCentsZ v : ℤ) : ℚ) / 100⌋ * 100 + 99
      ∧ toComma99Cents v
          = some (((⌊((roundToCentsZ v : ℤ) : ℚ) / 100⌋ * 100 + 99 : ℤ) : ℚ) / 100)
      ∧ ⌊((roundToCentsZ v : ℤ) : ℚ) / 100⌋ * 100 + 99 - roundToCentsZ v ≤ 99)
    ∧ ∀ n : ℤ, toComma99CentsRunner n - n ≤ 99 := by
  constructor
  · have hb := floorDiv100_bounds (roundToCentsZ v)
    refine ⟨by omega, ?_, by omega⟩
    simp only [toComma99Cents]
    rw [if_neg (not_le.mpr hv), if_neg (by omega)]
  · intro n
    by_cases h : n % 100 = 99
    · simp only [toComma99CentsRunner, if_pos h]
      omega
    · have hb := floorDiv100_bounds n
      simp only [toComma99CentsRunner, if_neg h]
      rw [if_neg (by omega)]
      omega

/-- Witness for C10 at the concrete input v = 7/2. -/
theorem toComma99Cents_no_advance_witness :
    (roundToCentsZ (7 / 2) ≤ ⌊((roundToCentsZ (7 / 2) : ℤ) : ℚ) / 100⌋ * 100 + 99
      ∧ toComma99Cents (7 / 2)
          = some (((⌊((roundToCentsZ (7 / 2) : ℤ) : ℚ) / 100⌋ * 100 + 99 : ℤ) : ℚ) / 100)
      ∧ ⌊((roundToCentsZ (7 / 2) : ℤ) : ℚ) / 100⌋ * 100 + 99 - roundToCentsZ (7 / 2) ≤ 99)
    ∧ ∀ n : ℤ, toComma99CentsRunner n - n ≤ 99 :=
  toComma99Cents_no_advance (7 / 2) (by norm_num)

/-- C2: the worked pricing example: bestPrice 90, surcharge 0, listPrice
100, shipping 6.00, VAT 1.22, feeA 1.05, feeB 1.08 gives base 9000 cents,
9600 after shipping, 11712 after VAT, 12298 after fee A, 13282 after fee B,
13299 after the `.99` forcing, displayed as the string 132,99. -/
theorem pricing_worked_example :
    computeBaseCents 100 90 0 = 9000
    ∧ jsRound ((6 : ℚ) * 100) = 600
    ∧ (9000 : ℤ) + 600 = 9600
    ∧ jsRound (((9600 : ℤ) : ℚ) * (122 / 100)) = 11712
    ∧ jsRound (((11712 : ℤ) : ℚ) * (105 / 100)) = 12298
    ∧ jsRound (((12298 : ℤ) : ℚ) * (108 / 100)) = 13282
    ∧ toComma99CentsRunner 13282 = 13299
    ∧ pricingFinalCents 9000 600 (105 / 100) (108 / 100) = 13299
    ∧ displayCents 13299 = "132,99" := by
  have h1 : jsRound (((9600 : ℤ) : ℚ) * (122 / 100)) = 11712 := by norm_num [jsRound]
  have h2 : jsRound (((11712 : ℤ) : ℚ) * (105 / 100)) = 12298 := by norm_num [jsRound]
  have h3 : jsRound (((12298 : ℤ) : ℚ) * (108 / 100)) = 13282 := by norm_num [jsRound]
  have h4 : toComma99CentsRunner 13282 = 13299 := by
    norm_num [toComma99CentsRunner]
  refine ⟨?_, ?_, by norm_num, h1, h2, h3, h4, ?_, by decide⟩
  · norm_num [computeBaseCents, jsRound]
  · norm_num [jsRound]
  · show toComma99CentsRunner
      (jsRound (((jsRound (((jsRound (((9000 + 600 : ℤ) : ℚ) * (122 / 100)) : ℤ) : ℚ)
        * (105 / 100)) : ℤ) : ℚ) * (108 / 100))) = 13299
    rw [show ((9000 + 600 : ℤ)) = (9600 : ℤ) from by norm_num, h1, h2, h3]
    exact h4

/-- C3 counterexample: with listPrice 100, bestPrice 90, shipping 6,
feeA 1.05, feeB 1.08 and final sale price 132.99, the claim's trigger
condition for the override route holds (bestPrice is positive and less
than listPrice), yet the code computes the normal-route value 147, which
differs from the override-route value. -/
theorem lpf_route_counterexample :
    ((0 : ℚ) < 90 ∧ (90 : ℚ) < 100)
    ∧ lpfValue 100 90 6 (105 / 100) (108 / 100) (13299 / 100) = some 147
    ∧ some (147 : ℤ)
        ≠ some (max ⌈(((90 : ℚ) * (125 / 100) + 6) * (122 / 100)) * (105 / 100) * (108 / 100)⌉
                    ⌈((13299 : ℚ) / 100) * (125 / 100)⌉) := by
  have hov : ⌈(((90 : ℚ) * (125 / 100) + 6) * (122 / 100)) * (105 / 100) * (108 / 100)⌉
      = (164 : ℤ) := by
    rw [Int.ceil_eq_iff]
    norm_num
  have hmin : ⌈((13299 : ℚ) / 100) * (125 / 100)⌉ = (167 : ℤ) := by
    rw [Int.ceil_eq_iff]
    norm_num
  have hnorm : ⌈(((100 : ℚ) + 6) * (122 / 100)) * (105 / 100) * (108 / 100)⌉ = (147 : ℤ) := by
    rw [Int.ceil_eq_iff]
    norm_num
  refine ⟨by norm_num, ?_, ?_⟩
  · simp only [lpfValue]
    rw [if_neg (by norm_num), if_pos (by norm_num), hnorm]
  · rw [hov, hmin]
    decide

/-- C3 amended: the pricing step computes list-price-with-fee by the
override route exactly when bestPrice is positive and listPrice is
missing/zero/invalid or below bestPrice; the override route is the maximum
of ceil((bestPrice*1.25 + shipping)*1.22*feeA*feeB) and
ceil(finalSalePrice*1.25); the normal route is
ceil((listPrice + shipping)*1.22*feeA*feeB); blank when neither price is
valid. -/
theorem lpf_route_amended (lp cbp ship feeDrev feeMkt finalEuros : ℚ) :
    lpfValue lp cbp ship feeDrev feeMkt finalEuros
      = specListPriceWithFee lp cbp ship feeDrev feeMkt finalEuros := by
  simp only [lpfValue, specListPriceWithFee]
  by_cases h1 : 0 < cbp <;> by_cases h2 : lp ≤ 0 <;> by_cases h3 : lp < cbp <;>
    simp [h1, h2, h3]

/-- C4 counterexample: on the 14-digit input 01234567890123 with a leading
zero, the utils implementation of normalizeEAN rejects with an
invalid-length reason, while the claim's reference definition accepts it
stripped to 13 digits. -/
theorem normalizeEAN_claim_counterexample :
    normalizeEAN_ts ("01234567890123".toList) = .rejected (.invalidLength 14)
    ∧ claimReferenceNormalizeEAN ("01234567890123".toList)
        = .accepted ("1234567890123".toList)
    ∧ normalizeEAN_ts ("01234567890123".toList)
        ≠ claimReferenceNormalizeEAN ("01234567890123".toList) := by
  refine ⟨by decide, by decide, by decide⟩

/-- C4 amended: each normalizeEAN implementation equals its reference
definition: trim, reject a trimmed-empty input as missing, strip
whitespace and hyphens, reject anything but a non-empty digit string as
non-numeric, accept 12 digits padded and 13 digits unchanged; the utils
version rejects every other length including 14, while the step-runner
version also accepts 14 digits, stripping a leading zero when present and
keeping all 14 digits otherwise. -/
theorem normalizeEAN_amended (raw : List Char) :
    normalizeEAN_ts raw = refNormalizeUtils raw
    ∧ normalizeEAN_runner raw = refNormalizeRunner raw := by
  constructor
  · simp only [normalizeEAN_ts, refNormalizeUtils]
    split_ifs <;> first | rfl | tauto | omega
  · simp only [normalizeEAN_runner, refNormalizeRunner]
    split_ifs <;> first | rfl | tauto | omega

/-- Witness for C4's amended theorem at the concrete input 123456789012,
which both implementations accept left-padded to 0123456789012. -/
theorem normalizeEAN_amended_witness :
    normalizeEAN_ts ("123456789012".toList) = refNormalizeUtils ("123456789012".toList)
    ∧ normalizeEAN_runner ("123456789012".toList)
        = refNormalizeRunner ("123456789012".toList) :=
  normalizeEAN_amended ("123456789012".toList)

/-- Characterization of the client-side catalog-builder dedup
(filterAndNormalizeForEAN): the kept entries have pairwise-distinct
normalized codes; for every code the byEAN map holds exactly the
later-ties price-maximal candidate among the normalized rows sharing that
code (none when there is no such row); and the kept entries together with
the duplicate discard report, each discard carrying its final price,
account for every normalized row exactly once. -/
theorem export_ean_dedup_correct (f : ERow → ℚ) (rows : List ERow) :
    ((filterAndNormalizeForEAN f rows).kept.map ERow.ean).Nodup
    ∧ (∀ k, mapLookup (dedupByEAN f (validRows rows)).1 k
        = latestMax (candidatesFor f (validRows rows) k))
    ∧ (((filterAndNormalizeForEAN f rows).kept.map (fun r => (r, f r)) : Multiset (ERow × ℚ))
        + (discPairs (filterAndNormalizeForEAN f rows).dupDiscards : Multiset (ERow × ℚ))
        = (rowPairs f (validRows rows) : Multiset (ERow × ℚ))) := by
  obtain ⟨hnd, hself, hlook, hacct⟩ := dedup_inv_holds f (validRows rows)
  have hkept : (filterAndNormalizeForEAN f rows).kept
      = (mapValues (dedupByEAN f (validRows rows)).1).map Prod.fst := rfl
  have hdisc : (filterAndNormalizeForEAN f rows).dupDiscards
      = (dedupByEAN f (validRows rows)).2 := rfl
  refine ⟨?_, hlook, ?_⟩
  · have heq : ((filterAndNormalizeForEAN f rows).kept.map ERow.ean)
        = (dedupByEAN f (validRows rows)).1.map Prod.fst := by
      rw [hkept, List.map_map, mapValues, List.map_map]
      exact List.map_congr_left (fun e he => (hself e he).1)
    rw [heq]
    exact hnd
  · have hmv : (filterAndNormalizeForEAN f rows).kept.map (fun r => (r, f r))
        = mapValues (dedupByEAN f (validRows rows)).1 := by
      rw [hkept, List.map_map]
      have hpt : ∀ v ∈ mapValues (dedupByEAN f (validRows rows)).1,
          ((fun r : ERow => (r, f r)) ∘ Prod.fst) v = id v := by
        intro v hv
        obtain ⟨e, he, hev⟩ := List.mem_map.mp hv
        have hp := (hself e he).2
        subst hev
        show (e.2.1, f e.2.1) = e.2
        rw [← hp]
      rw [List.map_congr_left hpt, List.map_id]
    rw [hmv, hdisc]
    exact hacct

/-- C6: every material row with a non-empty key is counted in exactly one
bucket (kept, or the first failing filter in the fixed order), so the
kept count plus the four skip counters equals the number of considered
rows, and the reported products_total metric equals both that number and
kept plus the skip-counter sum. -/
theorem parse_merge_counters (stock : List Char → Option ℤ)
    (price : List Char → Option PriceEntry) (rows : List MatRow) :
    productsTotalMetric (parseMergeLoop stock price rows).1.length
        (parseMergeLoop stock price rows).2
      = (rows.filter (fun r => decide (¬ r.matnr = []))).length
    ∧ productsTotalMetric (parseMergeLoop stock price rows).1.length
        (parseMergeLoop stock price rows).2
      = (parseMergeLoop stock price rows).1.length
        + ((parseMergeLoop stock price rows).2.noStock
          + (parseMergeLoop stock price rows).2.noPrice
          + (parseMergeLoop stock price rows).2.lowStock
          + (parseMergeLoop stock price rows).2.noValid) := by
  constructor
  · have h := parseMergeLoop_count stock price rows ([], ⟨0, 0, 0, 0⟩)
    rw [show parseMergeLoop stock price rows
        = List.foldl (parseMergeStep stock price) ([], ⟨0, 0, 0, 0⟩) rows from rfl]
    unfold productsTotalMetric
    unfold countSum at h
    simp only [List.length_nil] at h
    omega
  · rfl

/-- C7: the code-enrichment step writes back a table of the same length
whose i-th row is the enrichment of the input's i-th row, and the per-row
enrichment leaves every field except the product code unchanged, keeps a
non-empty product code as it is, and changes an empty code only to the
mapped value of a non-empty manufacturer code. -/
theorem ean_mapping_frame (mmap : List Char → Option (List Char))
    (ps : List PRow) (i : Fin ps.length) :
    (stepEanMappingRows mmap ps).length = ps.length
    ∧ (stepEanMappingRows mmap ps)[i.val]? = some (eanMapRow mmap (ps.get i))
    ∧ ∀ p : PRow,
        (eanMapRow mmap p).matnr = p.matnr
        ∧ (eanMapRow mmap p).mpn = p.mpn
        ∧ (eanMapRow mmap p).desc = p.desc
        ∧ (eanMapRow mmap p).stock = p.stock
        ∧ (eanMapRow mmap p).lp = p.lp
        ∧ (eanMapRow mmap p).cbp = p.cbp
        ∧ (eanMapRow mmap p).sur = p.sur
        ∧ (eanMapRow mmap p).pf = p.pf
        ∧ (eanMapRow mmap p).pfnum = p.pfnum
        ∧ (eanMapRow mmap p).lpf = p.lpf
        ∧ (p.ean ≠ [] → (eanMapRow mmap p).ean = p.ean)
        ∧ ((eanMapRow mmap p).ean = p.ean
            ∨ (p.ean = [] ∧ p.mpn ≠ [] ∧ mmap p.mpn = some ((eanMapRow mmap p).ean))) := by
  refine ⟨by simp [stepEanMappingRows], ?_, ?_⟩
  · rw [stepEanMappingRows, List.getElem?_map, List.getElem?_eq_getElem i.isLt]
    rfl
  · intro p
    by_cases h1 : p.ean = [] ∧ p.mpn ≠ []
    · cases hm : mmap p.mpn with
      | none =>
        have he : eanMapRow mmap p = p := by
          simp [eanMapRow, h1.1, h1.2, hm]
        rw [he]
        exact ⟨rfl, rfl, rfl, rfl, rfl, rfl, rfl, rfl, rfl, rfl,
          fun _ => rfl, Or.inl rfl⟩
      | some v =>
        have he : eanMapRow mmap p = { p with ean := v } := by
          simp [eanMapRow, h1.1, h1.2, hm]
        rw [he]
        exact ⟨rfl, rfl, rfl, rfl, rfl, rfl, rfl, rfl, rfl, rfl,
          fun hne => absurd h1.1 hne,
          Or.inr ⟨h1.1, h1.2, rfl⟩⟩
    · have he : eanMapRow mmap p = p := by
        simp [eanMapRow, h1]
      rw [he]
      exact ⟨rfl, rfl, rfl, rfl, rfl, rfl, rfl, rfl, rfl, rfl,
        fun _ => rfl, Or.inl rfl⟩

/-- Witness for C7 on a one-row table with a mapping that applies. -/
theorem ean_mapping_frame_witness :
    (stepEanMappingRows
        (fun s => if s = "M1".toList then some ("4006381333931".toList) else none)
        [⟨"A1".toList, "M1".toList, [], "Widget".toList, 5, 100, 90, 0, [], 0, []⟩]).length
      = ([⟨"A1".toList, "M1".toList, [], "Widget".toList, 5, 100, 90, 0, [], 0, []⟩]
          : List PRow).length
    ∧ (stepEanMappingRows
        (fun s => if s = "M1".toList then some ("4006381333931".toList) else none)
        [⟨"A1".toList, "M1".toList, [], "Widget".toList, 5, 100, 90, 0, [], 0, []⟩])[(0 : ℕ)]?
      = some (eanMapRow
          (fun s => if s = "M1".toList then some ("4006381333931".toList) else none)
          (([⟨"A1".toList, "M1".toList, [], "Widget".toList, 5, 100, 90, 0, [], 0, []⟩]
            : List PRow).get ⟨0, by decide⟩))
    ∧ ∀ p : PRow,
        (eanMapRow
            (fun s => if s = "M1".toList then some ("4006381333931".toList) else none)
            p).matnr = p.matnr
        ∧ (eanMapRow (fun s => if s = "M1".toList then some ("4006381333931".toList)
            else none) p).mpn = p.mpn
        ∧ (eanMapRow (fun s => if s = "M1".toList then some ("4006381333931".toList)
            else none) p).desc = p.desc
        ∧ (eanMapRow (fun s => if s = "M1".toList then some ("4006381333931".toList)
            else none) p).stock = p.stock
        ∧ (eanMapRow (fun s => if s = "M1".toList then some ("4006381333931".toList)
            else none) p).lp = p.lp
        ∧ (eanMapRow (fun s => if s = "M1".toList then some ("4006381333931".toList)
            else none) p).cbp = p.cbp
        ∧ (eanMapRow (fun s => if s = "M1".toList then some ("4006381333931".toList)
            else none) p).sur = p.sur
        ∧ (eanMapRow (fun s => if s = "M1".toList then some ("4006381333931".toList)
            else none) p).pf = p.pf
        ∧ (eanMapRow (fun s => if s = "M1".toList then some ("4006381333931".toList)
            else none) p).pfnum = p.pfnum
        ∧ (eanMapRow (fun s => if s = "M1".toList then some ("4006381333931".toList)
            else none) p).lpf = p.lpf
        ∧ (p.ean ≠ [] → (eanMapRow (fun s => if s = "M1".toList
            then some ("4006381333931".toList) else none) p).ean = p.ean)
        ∧ ((eanMapRow (fun s => if s = "M1".toList then some ("4006381333931".toList)
            else none) p).ean = p.ean
            ∨ (p.ean = [] ∧ p.mpn ≠ []
              ∧ (if p.mpn = "M1".toList then some ("4006381333931".toList) else none)
                  = some ((eanMapRow (fun s => if s = "M1".toList
                      then some ("4006381333931".toList) else none) p).ean))) :=
  ean_mapping_frame
    (fun s => if s = "M1".toList then some ("4006381333931".toList) else none)
    [⟨"A1".toList, "M1".toList, [], "Widget".toList, 5, 100, 90, 0, [], 0, []⟩]
    ⟨0, by decide⟩

/-- C8: a catalog row whose manufacturer code is longer than 40
characters is never emitted by the Mediaworld export step, whatever its
other fields and the rest of the catalog, and it also trips the SKU
validation of the strict client-side formatter. -/
theorem mediaworld_long_mpn_excluded (catalog : List CRow) (p : CRow)
    (h : 40 < p.mpn.length) :
    p ∉ stepExportMediaworldRows catalog ∧ mwUtilsSkuError p.mpn := by
  constructor
  · intro hmem
    have hf := List.mem_filter.mp hmem
    have hinc : ¬ mwSkip p := of_decide_eq_true hf.2
    exact hinc (Or.inr (Or.inl h))
  · exact Or.inr (Or.inl h)

/-- Witness for C8 on the 45-character sample row, alone in the catalog
with otherwise valid stock and prices. -/
theorem mediaworld_long_mpn_excluded_witness :
    mwSampleRow ∉ stepExportMediaworldRows [mwSampleRow]
    ∧ mwUtilsSkuError mwSampleRow.mpn :=
  mediaworld_long_mpn_excluded [mwSampleRow] mwSampleRow (by decide)

/-- C9: a request whose step name is none of the six known steps is
answered with a 400 status from the default switch branch, and the store
(run record and artifacts) is returned unchanged, whatever the step
executors would do. -/
theorem unknown_step_rejected {σ : Type} (exec : StepName → σ → Bool × σ)
    (runId step : List Char) (st : σ) (h : step ∉ knownSteps) :
    handleRequest exec runId step st = (400, st) := by
  have h1 : ¬ step = "parse_merge".toList := by
    intro hh
    exact h (by rw [hh]; simp [knownSteps])
  have h2 : ¬ step = "ean_mapping".toList := by
    intro hh
    exact h (by rw [hh]; simp [knownSteps])
  have h3 : ¬ step = "pricing".toList := by
    intro hh
    exact h (by rw [hh]; simp [knownSteps])
  have h4 : ¬ step = "export_ean".toList := by
    intro hh
    exact h (by rw [hh]; simp [knownSteps])
  have h5 : ¬ step = "export_mediaworld".toList := by
    intro hh
    exact h (by rw [hh]; simp [knownSteps])
  have h6 : ¬ step = "export_eprice".toList := by
    intro hh
    exact h (by rw [hh]; simp [knownSteps])
  have hp : parseStepName step = none := by
    rw [parseStepName, if_neg h1, if_neg h2, if_neg h3, if_neg h4, if_neg h5, if_neg h6]
  rw [handleRequest]
  by_cases hb : runId = [] ∨ step = []
  · rw [if_pos hb]
  · rw [if_neg hb, hp]

/-- Witness for C9: the unknown step name foo is rejected with a 400 and
the store value 0 survives untouched, although the executors would bump
it. -/
theorem unknown_step_rejected_witness :
    handleRequest (fun (_ : StepName) (n : ℕ) => (true, n + 1))
      ("run1".toList) ("foo".toList) 0 = (400, 0) :=
  unknown_step_rejected (fun (_ : StepName) (n : ℕ) => (true, n + 1))
    ("run1".toList) ("foo".toList) 0 (by decide)

/-- C5 counterexample: in the server-side export_ean dedup
(stepExportEan), two rows sharing a valid normalized code and tied on the
final price retain the earlier-seen candidate, not the later-seen one,
and the losing row is recorded nowhere: the discarded counter, the
step's only report, stays 0. -/
theorem export_ean_dedup_counterexample :
    dupRowA.pfnum = dupRowB.pfnum
    ∧ normalizeEAN_runner dupRowA.ean = .accepted ("4006381333931".toList)
    ∧ normalizeEAN_runner dupRowB.ean = .accepted ("4006381333931".toList)
    ∧ (stepExportEanDedup [dupRowA, dupRowB]).1.map (fun e => e.2.matnr)
        = ["A1".toList]
    ∧ (stepExportEanDedup [dupRowA, dupRowB]).2 = 0 := by
  refine ⟨rfl, by decide, by decide, by decide, by decide⟩

/-- C5 amended: after the catalog-builder deduplication there is at most
one entry per normalized code and the retained entry is one with the
greatest final sale price; in the client-side builder
(filterAndNormalizeForEAN) ties are won by the later-seen candidate and
each losing row is recorded exactly once in the discard report with its
final price, while in the server-side export_ean step ties are won by
the earlier-seen candidate and duplicate losers are recorded nowhere:
its discarded counter counts exactly the rows whose code fails
normalization. -/
theorem export_ean_dedup_amended (f : ERow → ℚ) (rows : List ERow)
    (products : List PRow) :
    (((filterAndNormalizeForEAN f rows).kept.map ERow.ean).Nodup
      ∧ (∀ k, mapLookup (dedupByEAN f (validRows rows)).1 k
          = latestMax (candidatesFor f (validRows rows) k))
      ∧ (((filterAndNormalizeForEAN f rows).kept.map (fun r => (r, f r))
            : Multiset (ERow × ℚ))
          + (discPairs (filterAndNormalizeForEAN f rows).dupDiscards
            : Multiset (ERow × ℚ))
          = (rowPairs f (validRows rows) : Multiset (ERow × ℚ))))
    ∧ ((stepExportEanDedup products).1.map Prod.fst).Nodup
    ∧ (∀ k, pLookup (stepExportEanDedup products).1 k
        = earliestMaxP (runnerCandidates products k))
    ∧ (stepExportEanDedup products).2 = (products.filter eanRejected).length := by
  obtain ⟨hnd, hself, hlook, hcnt⟩ := runner_inv_holds products
  exact ⟨export_ean_dedup_correct f rows, hnd, hlook, hcnt⟩
